import Mathlib

/-!
Verification of the ruleset model, serialization round-trip and
remote-mutation protocol of `terraform-provider-codeowners`.

Go strings are modelled as lists of characters (`Str`).  The `Rule` /
`Ruleset` model (`ruleset.go`) is not part of the sources, only its tests
and callers are; those definitions are modelled from the spec and marked
as such.  Everything else is translated from the sources
(`codeowners/resource_file.go`, the vendored
`go-github-utils/pkg/commit/commit.go` and `pkg/file/file.go`, and the
commit-signing code embedded in `README.md`).
-/

/-- Go strings are modelled as lists of characters. -/
abbrev Str := List Char

/-- Model of `unicode.IsSpace` as used by `strings.TrimSpace` and `strings.Fields`. -/
def isWs (c : Char) : Bool := c.isWhitespace

/-- Model of `strings.Split(s, string(sep))` for a one-character separator:
splits at every occurrence of `sep`, keeping empty segments. -/
def splitOnChar (sep : Char) : Str → List Str
  | [] => [[]]
  | c :: cs =>
    if c = sep then [] :: splitOnChar sep cs
    else
      match splitOnChar sep cs with
      | [] => [[c]]
      | w :: ws => (c :: w) :: ws

/-- Splitting at every whitespace character, keeping empty segments. -/
def splitWs : Str → List Str
  | [] => [[]]
  | c :: cs =>
    if isWs c then [] :: splitWs cs
    else
      match splitWs cs with
      | [] => [[c]]
      | w :: ws => (c :: w) :: ws

/-- Model of `strings.Fields`: the maximal whitespace-free runs of `s`. -/
def fieldsOf (s : Str) : List Str := (splitWs s).filter (fun w => !w.isEmpty)

/-- Drops leading whitespace (left half of `strings.TrimSpace`). -/
def trimLeft (s : Str) : Str := s.dropWhile isWs

/-- Model of `strings.TrimSpace`: drops leading and trailing whitespace. -/
def trimStr (s : Str) : Str := ((trimLeft s).reverse.dropWhile isWs).reverse

/-- Model of `strings.TrimPrefix(u, "@")`: drops one leading `@` when present. -/
def stripAt : Str → Str
  | [] => []
  | c :: cs => if c = '@' then cs else c :: cs

/-- Modelled from the spec: the `Rule` struct of the missing `ruleset.go` —
`{ pattern: string, usernames: ordered sequence of string }`. -/
structure Rule where
  pattern : Str
  usernames : List Str
deriving DecidableEq, Repr

/-- Modelled from the spec: a `Ruleset` is an ordered sequence of `Rule`. -/
abbrev Ruleset := List Rule

/-- Lexicographic order on character lists, modelling the ordering used by
`sort.Strings` on Go strings. -/
def strLe : Str → Str → Bool
  | [], _ => true
  | _ :: _, [] => false
  | a :: s, b :: t => if a < b then true else if b < a then false else strLe s t

/-- Ordered insertion into a `strLe`-sorted list. -/
def insertStr (x : Str) : List Str → List Str
  | [] => [x]
  | y :: ys => if strLe x y then x :: y :: ys else y :: insertStr x ys

/-- Model of `sort.Strings` on a username list: sorts by `strLe`. -/
def sortStrs : List Str → List Str
  | [] => []
  | x :: xs => insertStr x (sortStrs xs)

/-- Modelled from the spec: the canonical form of a rule compared by
`Ruleset.Equal` — its pattern together with its sorted usernames. -/
def normalizeRule (r : Rule) : Str × List Str := (r.pattern, sortStrs r.usernames)

/-- Modelled from the spec: `Equal(a, b Ruleset) bool` of the missing
`ruleset.go` — true iff the multisets of (pattern, sorted-usernames) pairs
coincide irrespective of rule order. -/
def Ruleset.Equal (a b : Ruleset) : Bool :=
  decide ((a.map normalizeRule).Perm (b.map normalizeRule))

/-- Modelled from the spec: the compiled line for one rule,
`"<pattern> @u1 @u2 ..."`, a leading `@` added to every username. -/
def compileRule (r : Rule) : Str :=
  r.pattern ++ (r.usernames.map fun u => ' ' :: '@' :: u).flatten

/-- Modelled from the spec: `Compile` of the missing `ruleset.go` — one line
per rule in the ruleset's current order, each terminated by a newline. -/
def Ruleset.Compile (rs : Ruleset) : Str :=
  (rs.map fun r => compileRule r ++ ['\n']).flatten

/-- Modelled from the spec: parsing of the individual lines of a CODEOWNERS
file — trim, skip blank and comment lines, split the rest on whitespace into
a pattern and usernames (leading `@` stripped), preserving line order. -/
def parseLines : List Str → Ruleset
  | [] => []
  | l :: ls =>
    let t := trimStr l
    if t.isEmpty then parseLines ls
    else if t.head? = some '#' then parseLines ls
    else
      match fieldsOf t with
      | [] => parseLines ls
      | p :: us => { pattern := p, usernames := us.map stripAt } :: parseLines ls

/-- Modelled from the spec: `parseRulesFile` of the missing `ruleset.go` —
split the text into lines and parse each. -/
def parseRulesFile (text : Str) : Ruleset := parseLines (splitOnChar '\n' text)

-- sanity examples (spec §8)
example :
    parseRulesFile ("* @user1\n*.go @user123 @user456\n".data) =
      [⟨"*".data, ["user1".data]⟩, ⟨"*.go".data, ["user123".data, "user456".data]⟩] := by
  decide

example :
    parseRulesFile ("\n# this is an example file\n\n# with blank lines\n\n  # and indented comments\n\n* @user1\n*.go @user123 @user456\n".data) =
      [⟨"*".data, ["user1".data]⟩, ⟨"*.go".data, ["user123".data, "user456".data]⟩] := by
  decide

example :
    Ruleset.Equal [⟨"*".data, ["jim".data, "bob".data]⟩]
      [⟨"*".data, ["bob".data, "jim".data]⟩] = true := by decide

example :
    Ruleset.Equal [⟨"*".data, ["jim".data]⟩] [⟨"*.go".data, ["jim".data]⟩] = false := by
  decide

example :
    Ruleset.Compile [⟨"*".data, ["jim".data, "bob".data]⟩] = "* @jim @bob\n".data := by
  decide

/-! ### Order facts about `strLe` and the username sort -/

theorem strLe_total (a b : Str) : strLe a b = true ∨ strLe b a = true := by
  induction a generalizing b with
  | nil => left; rfl
  | cons x s ih =>
    cases b with
    | nil => right; rfl
    | cons y t =>
      rcases lt_trichotomy x y with h | h | h
      · left; simp [strLe, h]
      · subst h
        rcases ih t with h2 | h2
        · left; simp [strLe, lt_irrefl, h2]
        · right; simp [strLe, lt_irrefl, h2]
      · right; simp [strLe, h]

theorem strLe_trans : ∀ {a b c : Str},
    strLe a b = true → strLe b c = true → strLe a c = true := by
  intro a
  induction a with
  | nil => intro b c _ _; rfl
  | cons x s ih =>
    intro b c h1 h2
    cases b with
    | nil => simp [strLe] at h1
    | cons y t =>
      cases c with
      | nil => simp [strLe] at h2
      | cons z u =>
        simp only [strLe] at h1 h2 ⊢
        rcases lt_trichotomy x y with hxy | hxy | hxy
        · rcases lt_trichotomy y z with hyz | hyz | hyz
          · simp [lt_trans hxy hyz]
          · subst hyz; simp [hxy]
          · simp [hyz, asymm hyz] at h2
        · subst hxy
          rcases lt_trichotomy x z with hyz | hyz | hyz
          · simp [hyz]
          · subst hyz
            simp only [lt_irrefl, if_false] at h1 h2 ⊢
            exact ih h1 h2
          · simp [hyz, asymm hyz] at h2
        · simp [hxy, asymm hxy] at h1

theorem strLe_antisymm : ∀ {a b : Str},
    strLe a b = true → strLe b a = true → a = b := by
  intro a
  induction a with
  | nil =>
    intro b _ h2
    cases b with
    | nil => rfl
    | cons y t => simp [strLe] at h2
  | cons x s ih =>
    intro b h1 h2
    cases b with
    | nil => simp [strLe] at h1
    | cons y t =>
      simp only [strLe] at h1 h2
      rcases lt_trichotomy x y with hxy | hxy | hxy
      · simp [hxy, asymm hxy] at h2
      · subst hxy
        simp only [lt_irrefl, if_false] at h1 h2
        exact congrArg (x :: ·) (ih h1 h2)
      · simp [hxy, asymm hxy] at h1

theorem insertStr_perm (x : Str) (l : List Str) :
    (insertStr x l).Perm (x :: l) := by
  induction l with
  | nil => exact List.Perm.refl _
  | cons y ys ih =>
    by_cases h : strLe x y = true
    · simp [insertStr, h]
    · simp only [insertStr, h, if_false]
      exact (ih.cons y).trans (List.Perm.swap x y ys)

theorem sortStrs_perm (l : List Str) : (sortStrs l).Perm l := by
  induction l with
  | nil => exact List.Perm.refl _
  | cons x xs ih =>
    exact ((insertStr_perm x (sortStrs xs)).trans (ih.cons x))

/-- The ordering relation on usernames, as a `Prop`. -/
def strRel (a b : Str) : Prop := strLe a b = true

theorem insertStr_sorted (x : Str) {l : List Str} (h : l.Pairwise strRel) :
    (insertStr x l).Pairwise strRel := by
  induction l with
  | nil => simp [insertStr, strRel]
  | cons y ys ih =>
    rcases List.pairwise_cons.mp h with ⟨hy, hys⟩
    by_cases hxy : strLe x y = true
    · simp only [insertStr, hxy, if_true]
      refine List.Pairwise.cons ?_ h
      intro z hz
      rcases List.mem_cons.mp hz with rfl | hz
      · exact hxy
      · exact strLe_trans hxy (hy z hz)
    · simp only [insertStr, hxy, if_false]
      refine List.Pairwise.cons ?_ (ih hys)
      intro z hz
      have hz' := (insertStr_perm x ys).mem_iff.mp hz
      rcases List.mem_cons.mp hz' with rfl | hz'
      · rcases strLe_total z y with h' | h'
        · exact absurd h' hxy
        · exact h'
      · exact hy z hz'

theorem sortStrs_sorted (l : List Str) : (sortStrs l).Pairwise strRel := by
  induction l with
  | nil => simp [sortStrs]
  | cons x xs ih => exact insertStr_sorted x ih

theorem sortStrs_eq_of_perm {l₁ l₂ : List Str} (h : l₁.Perm l₂) :
    sortStrs l₁ = sortStrs l₂ := by
  have hp : (sortStrs l₁).Perm (sortStrs l₂) :=
    ((sortStrs_perm l₁).trans h).trans (sortStrs_perm l₂).symm
  exact @List.eq_of_perm_of_sorted _ strRel ⟨fun _ _ h1 h2 => strLe_antisymm h1 h2⟩
    _ _ hp (sortStrs_sorted l₁) (sortStrs_sorted l₂)

/-- Sorting of a username multiset: the unique `strLe`-sorted enumeration. -/
def msortStrs : Multiset Str → List Str :=
  Quotient.lift sortStrs fun _ _ h => sortStrs_eq_of_perm h

/-! ### C1: order-insensitive ruleset equality -/

theorem map_normalize_coe (a : Ruleset) :
    (a.map normalizeRule).map (fun p : Str × List Str => (p.1, (p.2 : Multiset Str))) =
      a.map fun r => (r.pattern, (r.usernames : Multiset Str)) := by
  rw [List.map_map]
  refine List.map_congr_left fun r _ => ?_
  simp only [Function.comp, normalizeRule]
  exact Prod.ext rfl (Multiset.coe_eq_coe.mpr (sortStrs_perm r.usernames))

theorem map_pair_msort (a : Ruleset) :
    (a.map fun r => (r.pattern, (r.usernames : Multiset Str))).map
        (fun p : Str × Multiset Str => (p.1, msortStrs p.2)) =
      a.map normalizeRule := by
  rw [List.map_map]
  rfl

/-- C1: `Ruleset.Equal` is exactly multiset equality of (pattern,
username-multiset) pairs — rule order and username order within a rule never
affect it, while differences in pattern text or username membership always
make it false. -/
theorem ruleset_equal_iff_perm (a b : Ruleset) :
    Ruleset.Equal a b = true ↔
      (a.map fun r => (r.pattern, (r.usernames : Multiset Str))).Perm
        (b.map fun r => (r.pattern, (r.usernames : Multiset Str))) := by
  rw [Ruleset.Equal, decide_eq_true_iff]
  constructor
  · intro h
    have h2 := h.map (fun p : Str × List Str => (p.1, (p.2 : Multiset Str)))
    rwa [map_normalize_coe, map_normalize_coe] at h2
  · intro h
    have h2 := h.map (fun p : Str × Multiset Str => (p.1, msortStrs p.2))
    rwa [map_pair_msort, map_pair_msort] at h2

/-! ### Facts about splitting and trimming -/

/-- Whitespace-freeness of a string (used throughout the round-trip claims). -/
def NoWs (s : Str) : Prop := ∀ c ∈ s, isWs c = false

instance (s : Str) : Decidable (NoWs s) := by unfold NoWs; infer_instance

theorem isWs_space : isWs ' ' = true := by decide

theorem isWs_nl : isWs '\n' = true := by decide

theorem nl_not_mem_of_noWs {s : Str} (h : NoWs s) : '\n' ∉ s := fun hm => by
  have := h '\n' hm
  rw [isWs_nl] at this
  exact Bool.noConfusion this

theorem splitOnChar_append_sep (sep : Char) (a b : Str) (h : sep ∉ a) :
    splitOnChar sep (a ++ sep :: b) = a :: splitOnChar sep b := by
  induction a with
  | nil => simp [splitOnChar]
  | cons c cs ih =>
    simp only [List.mem_cons, not_or] at h
    have hc : ¬(c = sep) := fun hh => h.1 hh.symm
    simp [List.cons_append, splitOnChar, hc, ih h.2]

theorem splitOnChar_no_sep (sep : Char) (s : Str) (h : sep ∉ s) :
    splitOnChar sep s = [s] := by
  induction s with
  | nil => rfl
  | cons c cs ih =>
    simp only [List.mem_cons, not_or] at h
    have hc : ¬(c = sep) := fun hh => h.1 hh.symm
    simp [splitOnChar, hc, ih h.2]

theorem splitWs_no_ws (w : Str) (h : NoWs w) : splitWs w = [w] := by
  induction w with
  | nil => rfl
  | cons c cs ih =>
    simp [splitWs, h c (List.mem_cons_self c cs),
      ih fun d hd => h d (List.mem_cons_of_mem c hd)]

theorem splitWs_append_space (w rest : Str) (h : NoWs w) :
    splitWs (w ++ ' ' :: rest) = w :: splitWs rest := by
  induction w with
  | nil => simp [splitWs, isWs_space]
  | cons c cs ih =>
    simp [splitWs, h c (List.mem_cons_self c cs),
      ih fun d hd => h d (List.mem_cons_of_mem c hd)]

theorem dropWhile_ws_eq_self {l : Str}
    (h : ∀ c, l.head? = some c → isWs c = false) : l.dropWhile isWs = l := by
  cases l with
  | nil => rfl
  | cons c cs =>
    rw [List.dropWhile_cons, if_neg]
    simp [h c rfl]

theorem trimStr_eq_self {l : Str}
    (h1 : ∀ c, l.head? = some c → isWs c = false)
    (h2 : ∀ c, l.getLast? = some c → isWs c = false) : trimStr l = l := by
  rw [trimStr, trimLeft, dropWhile_ws_eq_self h1]
  rw [dropWhile_ws_eq_self (fun c hc => h2 c (by rwa [List.head?_reverse] at hc))]
  exact List.reverse_reverse l

theorem trimStr_eq_self_of_noWs {l : Str} (h : NoWs l) : trimStr l = l :=
  trimStr_eq_self
    (fun c hc => h c (List.mem_of_mem_head? hc))
    (fun c hc => h c (List.mem_of_mem_getLast? hc))

/-! ### The compiled line of a rule -/

theorem isWs_at : isWs '@' = false := by decide

theorem splitWs_compileLine (p : Str) (us : List Str) (hp : NoWs p)
    (hus : ∀ u ∈ us, NoWs u) :
    splitWs (p ++ (us.map fun u => ' ' :: '@' :: u).flatten) =
      p :: us.map fun u => '@' :: u := by
  induction us generalizing p with
  | nil => simpa using splitWs_no_ws p hp
  | cons u rest ih =>
    have hstep : p ++ ((u :: rest).map fun v => ' ' :: '@' :: v).flatten =
        p ++ ' ' :: (('@' :: u) ++ (rest.map fun v => ' ' :: '@' :: v).flatten) := by
      simp
    rw [hstep, splitWs_append_space p _ hp]
    have hu : NoWs ('@' :: u) := by
      intro c hc
      rcases List.mem_cons.mp hc with rfl | hc
      · exact isWs_at
      · exact hus u (List.mem_cons_self u rest) c hc
    rw [ih ('@' :: u) hu fun v hv => hus v (List.mem_cons_of_mem u hv)]
    simp

theorem fieldsOf_compileRule (p : Str) (us : List Str) (hp : p ≠ []) (hpw : NoWs p)
    (hus : ∀ u ∈ us, NoWs u) :
    fieldsOf (compileRule ⟨p, us⟩) = p :: us.map fun u => '@' :: u := by
  rw [fieldsOf, compileRule, splitWs_compileLine p us hpw hus]
  refine List.filter_eq_self.mpr fun w hw => ?_
  rcases List.mem_cons.mp hw with rfl | hw
  · simpa using hp
  · rcases List.mem_map.mp hw with ⟨u, _, rfl⟩
    simp

theorem compileRule_head? {p : Str} (us : List Str) (hp : p ≠ []) :
    (compileRule ⟨p, us⟩).head? = p.head? := by
  cases p with
  | nil => exact absurd rfl hp
  | cons c cs => simp [compileRule]

theorem compileRule_getLast {p : Str} {us : List Str} (hpw : NoWs p)
    (hus : ∀ u ∈ us, NoWs u) :
    ∀ c, (compileRule ⟨p, us⟩).getLast? = some c → isWs c = false := by
  intro c hc
  rcases List.eq_nil_or_concat us with rfl | ⟨us', u, rfl⟩
  · have : (compileRule ⟨p, ([] : List Str)⟩) = p := by simp [compileRule]
    rw [this] at hc
    exact hpw c (List.mem_of_mem_getLast? hc)
  · simp only [List.concat_eq_append] at hc hus
    have hsplit : compileRule ⟨p, us' ++ [u]⟩ =
        (p ++ ((us'.map fun v => ' ' :: '@' :: v).flatten)) ++ (' ' :: '@' :: u) := by
      simp [compileRule]
    rw [hsplit, List.getLast?_append] at hc
    have hu : NoWs u := hus u (by simp)
    rcases List.eq_nil_or_concat u with rfl | ⟨u', d, rfl⟩
    · simp [Option.or] at hc
      subst hc
      exact isWs_at
    · simp only [List.concat_eq_append] at hc hu
      have : (' ' :: '@' :: (u' ++ [d])).getLast? = some d := by
        have : (' ' :: '@' :: (u' ++ [d])) = ((' ' :: '@' :: u') ++ [d]) := by simp
        rw [this, List.getLast?_concat]
      rw [this] at hc
      simp [Option.or] at hc
      subst hc
      exact hu d (by simp)

theorem compileRule_ne_nil {p : Str} (us : List Str) (hp : p ≠ []) :
    compileRule ⟨p, us⟩ ≠ [] := by
  cases p with
  | nil => exact absurd rfl hp
  | cons c cs => simp [compileRule]

theorem nl_not_mem_compileRule {p : Str} {us : List Str} (hpw : NoWs p)
    (hus : ∀ u ∈ us, NoWs u) : '\n' ∉ compileRule ⟨p, us⟩ := by
  intro hmem
  rw [compileRule] at hmem
  rcases List.mem_append.mp hmem with h | h
  · exact nl_not_mem_of_noWs hpw h
  · rcases List.mem_flatten.mp h with ⟨blk, hblk, hcblk⟩
    rcases List.mem_map.mp hblk with ⟨u, hu, rfl⟩
    rcases List.mem_cons.mp hcblk with h' | h'
    · exact absurd h' (by decide)
    · rcases List.mem_cons.mp h' with h'' | h''
      · exact absurd h'' (by decide)
      · exact nl_not_mem_of_noWs (hus u hu) h''

/-! ### C2: round-trip of `Compile` and `parseRulesFile` -/

theorem parseLines_cons_rule {l : Str} (ls : List Str) (hne : trimStr l ≠ [])
    (hh : ¬((trimStr l).head? = some '#')) {p : Str} {us' : List Str}
    (hf : fieldsOf (trimStr l) = p :: us') :
    parseLines (l :: ls) = ⟨p, us'.map stripAt⟩ :: parseLines ls := by
  simp only [parseLines]
  rw [if_neg (by simpa using hne), if_neg hh, hf]

theorem parseLines_cons_skip {l : Str} (ls : List Str)
    (hskip : trimStr l = [] ∨ (trimStr l).head? = some '#') :
    parseLines (l :: ls) = parseLines ls := by
  simp only [parseLines]
  rcases hskip with h | h
  · rw [if_pos (by simp [h])]
  · by_cases he : trimStr l = []
    · rw [if_pos (by simp [he])]
    · rw [if_neg (by simpa using he), if_pos h]

theorem stripAt_at (u : Str) : stripAt ('@' :: u) = u := by simp [stripAt]

theorem splitOnChar_compile (rs : Ruleset) (h : ∀ r ∈ rs, '\n' ∉ compileRule r) :
    splitOnChar '\n' (Ruleset.Compile rs) = rs.map compileRule ++ [[]] := by
  induction rs with
  | nil => rfl
  | cons r rest ih =>
    have hstep : Ruleset.Compile (r :: rest) =
        compileRule r ++ '\n' :: Ruleset.Compile rest := by
      simp [Ruleset.Compile]
    rw [hstep, splitOnChar_append_sep _ _ _ (h r (List.mem_cons_self r rest)),
      ih fun r' hr' => h r' (List.mem_cons_of_mem r hr')]
    simp

/-- The conditions under which one rule survives the compile/parse round trip:
nonempty whitespace-free pattern not starting with `#`, whitespace-free
usernames. -/
def GoodRule (r : Rule) : Prop :=
  r.pattern ≠ [] ∧ NoWs r.pattern ∧ r.pattern.head? ≠ some '#' ∧
    ∀ u ∈ r.usernames, NoWs u

instance (r : Rule) : Decidable (GoodRule r) := by unfold GoodRule; infer_instance

theorem parseLines_compile (rs : Ruleset) (h : ∀ r ∈ rs, GoodRule r) :
    parseLines (rs.map compileRule ++ [[]]) = rs := by
  induction rs with
  | nil => rfl
  | cons r rest ih =>
    obtain ⟨hp, hpw, hph, hus⟩ := h r (List.mem_cons_self r rest)
    obtain ⟨p, us⟩ := r
    have htrim : trimStr (compileRule ⟨p, us⟩) = compileRule ⟨p, us⟩ :=
      trimStr_eq_self
        (fun c hc => hpw c (by
          rw [compileRule_head? us hp] at hc
          exact List.mem_of_mem_head? hc))
        (compileRule_getLast hpw hus)
    rw [List.map_cons, List.cons_append,
      parseLines_cons_rule _
        (by rw [htrim]; exact compileRule_ne_nil us hp)
        (by rw [htrim, compileRule_head? us hp]; exact hph)
        (by rw [htrim]; exact fieldsOf_compileRule p us hp hpw hus),
      ih fun r' hr' => h r' (List.mem_cons_of_mem _ hr')]
    simp [Function.comp_def, stripAt_at]

/-- C2 (amended): the round trip `Equal(r, Parse(Compile(r)))` holds for every
ruleset whose patterns are nonempty, whitespace-free and do not start with
`#`, and whose usernames are whitespace-free; `Parse` in fact reproduces the
ruleset exactly. -/
theorem ruleset_roundtrip (rs : Ruleset) (h : ∀ r ∈ rs, GoodRule r) :
    parseRulesFile (Ruleset.Compile rs) = rs ∧
      Ruleset.Equal rs (parseRulesFile (Ruleset.Compile rs)) = true := by
  have heq : parseRulesFile (Ruleset.Compile rs) = rs := by
    rw [parseRulesFile,
      splitOnChar_compile rs fun r hr =>
        nl_not_mem_compileRule (h r hr).2.1 (h r hr).2.2.2]
    exact parseLines_compile rs h
  refine ⟨heq, ?_⟩
  rw [heq, Ruleset.Equal, decide_eq_true_iff]

/-- C2 witness: a concrete two-rule ruleset satisfying the amended conditions
round-trips. -/
theorem ruleset_roundtrip_witness :
    (∀ r ∈ ([⟨"*".data, ["jim".data, "bob".data]⟩,
      ⟨"*.go".data, ["someone".data]⟩] : Ruleset), GoodRule r) ∧
    Ruleset.Equal [⟨"*".data, ["jim".data, "bob".data]⟩, ⟨"*.go".data, ["someone".data]⟩]
      (parseRulesFile (Ruleset.Compile
        [⟨"*".data, ["jim".data, "bob".data]⟩, ⟨"*.go".data, ["someone".data]⟩])) = true :=
  ⟨by decide, (ruleset_roundtrip _ (by decide)).2⟩

/-- C2 counterexample: the claim as stated fails for a pattern containing an
(interior, non-newline) space — `"a b"` has no embedded newline and does not
start with `#`, its username `"u"` is whitespace-free, yet the round trip
does not hold. -/
theorem ruleset_roundtrip_counterexample :
    (∀ c ∈ ("a b".data : Str), c ≠ '\n') ∧
    ("a b".data : Str).head? ≠ some '#' ∧
    NoWs ("u".data) ∧
    Ruleset.Equal [⟨"a b".data, ["u".data]⟩]
      (parseRulesFile (Ruleset.Compile [⟨"a b".data, ["u".data]⟩])) = false := by
  decide

/-! ### C3: declarative characterization of parsing -/

/-- The per-line outcome of parsing: `none` for skipped (blank or comment or
impossible token-free) lines, otherwise the rule read from the line's
whitespace-separated tokens. -/
def parseLineSpec (t : Str) : Option Rule :=
  if t.isEmpty then none
  else if t.head? = some '#' then none
  else
    match fieldsOf t with
    | [] => none
    | p :: us => some ⟨p, us.map stripAt⟩

theorem parseLines_eq_filterMap (ls : List Str) :
    parseLines ls = (ls.map trimStr).filterMap parseLineSpec := by
  induction ls with
  | nil => rfl
  | cons l ls ih =>
    simp only [List.map_cons, List.filterMap_cons]
    by_cases he : (trimStr l).isEmpty
    · rw [parseLines_cons_skip _ (Or.inl (List.isEmpty_iff.mp he))]
      simp [parseLineSpec, he, ih]
    · by_cases hh : (trimStr l).head? = some '#'
      · rw [parseLines_cons_skip _ (Or.inr hh)]
        simp [parseLineSpec, he, hh, ih]
      · cases hf : fieldsOf (trimStr l) with
        | nil =>
          have hskip : parseLines (l :: ls) = parseLines ls := by
            simp only [parseLines]
            rw [if_neg (by simpa using he), if_neg hh, hf]
          rw [hskip]
          simp [parseLineSpec, he, hh, hf, ih]
        | cons p us =>
          rw [parseLines_cons_rule _ (by simpa using he) hh hf]
          simp [parseLineSpec, he, hh, hf, ih]

theorem parseLineSpec_none {t : Str} (h : t = [] ∨ t.head? = some '#') :
    parseLineSpec t = none := by
  rcases h with rfl | h
  · rfl
  · rw [parseLineSpec, if_neg, if_pos h]
    cases t with
    | nil => cases h
    | cons c cs => simp

theorem fieldsOf_single (p : Str) (hp : p ≠ []) (h : NoWs p) : fieldsOf p = [p] := by
  rw [fieldsOf, splitWs_no_ws p h]
  simp [hp]

/-- C3: `parseRulesFile` trims every line, skips blank lines and lines whose
trimmed form starts with `#`, splits every remaining line on whitespace runs
into a pattern and `@`-stripped usernames, and preserves line order; it is
total (never fails), a file of only comments and blank lines yields the empty
ruleset, and a pattern-only line yields a rule with no usernames. -/
theorem parse_behavior :
    (∀ text : Str, parseRulesFile text =
        ((splitOnChar '\n' text).map trimStr).filterMap parseLineSpec) ∧
    (∀ text : Str,
        (∀ l ∈ splitOnChar '\n' text, trimStr l = [] ∨ (trimStr l).head? = some '#') →
        parseRulesFile text = []) ∧
    (∀ p : Str, p ≠ [] → NoWs p → p.head? ≠ some '#' →
        parseRulesFile p = [⟨p, []⟩]) := by
  refine ⟨fun text => parseLines_eq_filterMap _, ?_, ?_⟩
  · intro text h
    rw [parseRulesFile, parseLines_eq_filterMap]
    refine List.filterMap_eq_nil_iff.mpr fun t ht => ?_
    rcases List.mem_map.mp ht with ⟨l, hl, rfl⟩
    exact parseLineSpec_none (h l hl)
  · intro p hne hnw hh
    have htrim : trimStr p = p := trimStr_eq_self_of_noWs hnw
    rw [parseRulesFile, splitOnChar_no_sep '\n' p (nl_not_mem_of_noWs hnw),
      parseLines_cons_rule [] (by rw [htrim]; exact hne) (by rw [htrim]; exact hh)
        (by rw [htrim]; exact fieldsOf_single p hne hnw)]
    rfl

/-- C3 witness: the characterization applied to a comments-and-blanks-only
file and to a single pattern-only line. -/
theorem parse_behavior_witness :
    parseRulesFile ("# a comment\n\n   \n\t# indented comment".data) = [] ∧
    parseRulesFile ("docs/*".data) = [⟨"docs/*".data, []⟩] :=
  ⟨parse_behavior.2.1 _ (by decide),
   parse_behavior.2.2 ("docs/*".data) (by decide) (by decide) (by decide)⟩

/-! ### The apply orchestrator: `CreateCommit` of go-github-utils

The GitHub client is abstracted as an oracle (`GithubEnv`) fixing the
outcome of every remote call of one apply; `CreateCommit` returns both its
result and the trace of calls and sleeps it performs, in order. -/

/-- One nanosecond of Go's `time.Duration`, modelled as `Int`. -/
def nanosecond : Int := 1

/-- `time.Second` in nanoseconds. -/
def second : Int := 1000000000

/-- Model of `github.TreeEntry` (pointer fields become `Option`); an entry
with `sha = none` and no content is a deletion tombstone. -/
structure TreeEntry where
  sha : Option Str
  path : Option Str
  mode : Option Str
  entryType : Option Str
  content : Option Str
deriving DecidableEq, Repr

/-- Model of `commit.CommitOptions` (commit.go lines 18-33). -/
structure CommitOptions where
  repoOwner : Str
  repoName : Str
  commitMessage : Str
  gpgPassphrase : Str
  gpgPrivateKey : Str
  changes : List TreeEntry
  baseTreeOverride : Option Str
  branch : Str
  username : Str
  email : Str
  maxRetries : Int
  retryBackoff : Int
  pullRequestSourceBranchName : Str
  pullRequestBody : Str

/-- The observable steps of one apply: remote calls and backoff sleeps, in
program order. -/
inductive Event where
  | getFile
  | getContents
  | getDefaultBranch
  | getShaForBranch
  | createTree
  | getCommit
  | createCommit
  | createRef
  | createPR
  | mergeAttempt (attempt : Nat)
  | deleteRef
  | sleep (backoff : Int)
  | closePR
deriving DecidableEq, Repr

/-- Errors surfaced by `CreateCommit`. -/
inductive CommitError where
  | remote (msg : Str)
  | keyError (msg : Str)
  | mergeFailed (status : Option Int) (msg : Str)
deriving DecidableEq, Repr

/-- The outcome of one `PullRequests.Merge` call: success, or an error with
the response's status code when a response was received. -/
inductive MergeOutcome where
  | success
  | failure (status : Option Int) (msg : Str)
deriving DecidableEq, Repr

/-- The oracle fixing every remote outcome of one apply.  Merge outcomes are
indexed by the (1-based) attempt number; the results of the best-effort
`DeleteRef` and `Edit` (close) calls are present but, as in the source, never
consulted. -/
structure GithubEnv where
  defaultBranch : Except Str Str
  shaForBranch : Str → Except Str Str
  createTree : Except Str Str
  getCommit : Except Str Str
  readGpgKey : Except Str Unit
  createCommitRes : Except Str Str
  createRefRes : Except Str Unit
  createPRRes : Except Str Nat
  merge : Nat → MergeOutcome
  deleteRefRes : Except Str Unit
  editPRRes : Except Str Unit
  nowUnixNano : Int

/-- commit.go lines 36-42: substitute `MaxRetries <= 0 ↦ 3` and
`RetryBackoff == 0 ↦ 5s` before anything else happens. -/
def defaultedOptions (o : CommitOptions) : CommitOptions :=
  { o with
    maxRetries := if o.maxRetries ≤ 0 then 3 else o.maxRetries
    retryBackoff := if o.retryBackoff = 0 then 5 * second else o.retryBackoff }

/-- commit.go lines 136-158: the merge retry loop.  `fuel` counts the
remaining iterations of `for retryCount := attempt; retryCount <= MaxRetries`
(zero fuel means the loop condition is false and the loop falls through to
`return nil`).  On success the temporary branch is deleted best-effort and the
loop breaks; on failure with retries left it sleeps and retries; on the last
failure it closes the pull request best-effort and errors out. -/
def mergeLoop (env : GithubEnv) (backoff maxRetries : Int) :
    Nat → Nat → List Event × Except CommitError Unit
  | _, 0 => ([], .ok ())
  | attempt, fuel + 1 =>
    match env.merge attempt with
    | .success => ([.mergeAttempt attempt, .deleteRef], .ok ())
    | .failure status msg =>
      if (attempt : Int) < maxRetries then
        let rest := mergeLoop env backoff maxRetries (attempt + 1) fuel
        (.mergeAttempt attempt :: .sleep backoff :: rest.1, rest.2)
      else
        ([.mergeAttempt attempt, .closePR], .error (.mergeFailed status msg))

/-- commit.go lines 54-134 for a resolved branch `b`: get the branch SHA,
create the tree (from the branch SHA or `BaseTreeOverride`), fetch the parent
commit, read the GPG key when one is configured, create the commit, the
temporary ref and the pull request.  SHAs, ref names and PR numbers are
absorbed into the oracle, which fixes each call's outcome. -/
def createCommitFromBranch (env : GithubEnv) (o : CommitOptions) (b : Str) :
    List Event × Except CommitError Unit :=
  match env.shaForBranch b with
  | .error e => ([.getShaForBranch], .error (.remote e))
  | .ok _ =>
    match env.createTree with
    | .error e => ([.getShaForBranch, .createTree], .error (.remote e))
    | .ok _ =>
      match env.getCommit with
      | .error e => ([.getShaForBranch, .createTree, .getCommit], .error (.remote e))
      | .ok _ =>
        match (if o.gpgPrivateKey = [] then Except.ok () else env.readGpgKey) with
        | .error e =>
          ([.getShaForBranch, .createTree, .getCommit], .error (.keyError e))
        | .ok _ =>
          match env.createCommitRes with
          | .error e =>
            ([.getShaForBranch, .createTree, .getCommit, .createCommit],
             .error (.remote e))
          | .ok _ =>
            match env.createRefRes with
            | .error e =>
              ([.getShaForBranch, .createTree, .getCommit, .createCommit,
                .createRef], .error (.remote e))
            | .ok _ =>
              match env.createPRRes with
              | .error e =>
                ([.getShaForBranch, .createTree, .getCommit, .createCommit,
                  .createRef, .createPR], .error (.remote e))
              | .ok _ =>
                ([.getShaForBranch, .createTree, .getCommit, .createCommit,
                  .createRef, .createPR], .ok ())

/-- commit.go lines 44-134: everything before the merge retry loop — resolve
the default branch when none is configured, then proceed from the resolved
branch. -/
def createCommitPrelim (env : GithubEnv) (o : CommitOptions) :
    List Event × Except CommitError Unit :=
  if o.branch = [] then
    match env.defaultBranch with
    | .error e => ([.getDefaultBranch], .error (.remote e))
    | .ok b =>
      let rest := createCommitFromBranch env o b
      (.getDefaultBranch :: rest.1, rest.2)
  else
    createCommitFromBranch env o o.branch

/-- Model of `commit.CreateCommit`: default the retry parameters, run the
preliminary steps, then the merge retry loop starting at attempt 1. -/
def CreateCommit (env : GithubEnv) (o' : CommitOptions) :
    List Event × Except CommitError Unit :=
  let o := defaultedOptions o'
  match createCommitPrelim env o with
  | (evs, .error e) => (evs, .error e)
  | (evs, .ok _) =>
    let loop := mergeLoop env o.retryBackoff o.maxRetries 1 o.maxRetries.toNat
    (evs ++ loop.1, loop.2)

/-- The events produced only by the merge retry loop. -/
def Event.isLoopEvent : Event → Bool
  | .mergeAttempt _ => true
  | .deleteRef => true
  | .sleep _ => true
  | .closePR => true
  | _ => false

/-- Sleep events, for counting backoffs. -/
def Event.isSleep : Event → Bool
  | .sleep _ => true
  | _ => false

theorem createCommitFromBranch_events (env : GithubEnv) (o : CommitOptions) (b : Str) :
    ∀ e ∈ (createCommitFromBranch env o b).1, e.isLoopEvent = false := by
  rw [createCommitFromBranch]
  cases env.shaForBranch b with
  | error e1 => intro e he; fin_cases he <;> rfl
  | ok s =>
    cases env.createTree with
    | error e1 => intro e he; fin_cases he <;> rfl
    | ok t =>
      cases env.getCommit with
      | error e1 => intro e he; fin_cases he <;> rfl
      | ok p =>
        cases hk : (if o.gpgPrivateKey = [] then Except.ok () else env.readGpgKey) with
        | error e1 => intro e he; fin_cases he <;> rfl
        | ok u =>
          cases env.createCommitRes with
          | error e1 => intro e he; fin_cases he <;> rfl
          | ok c =>
            cases env.createRefRes with
            | error e1 => intro e he; fin_cases he <;> rfl
            | ok r =>
              cases env.createPRRes with
              | error e1 => intro e he; fin_cases he <;> rfl
              | ok n => intro e he; fin_cases he <;> rfl

theorem createCommitPrelim_events (env : GithubEnv) (o : CommitOptions) :
    ∀ e ∈ (createCommitPrelim env o).1, e.isLoopEvent = false := by
  rw [createCommitPrelim]
  by_cases hb : o.branch = []
  · rw [if_pos hb]
    cases env.defaultBranch with
    | error e1 => intro e he; fin_cases he <;> rfl
    | ok b =>
      intro e he
      rcases List.mem_cons.mp he with rfl | he
      · rfl
      · exact createCommitFromBranch_events env o b e he
  · rw [if_neg hb]
    exact createCommitFromBranch_events env o o.branch

/-- The trace of `n` consecutive failed merge attempts starting at `attempt`:
each attempt is followed by one backoff sleep. -/
def failBlocks (backoff : Int) : Nat → Nat → List Event
  | _, 0 => []
  | attempt, n + 1 =>
    .mergeAttempt attempt :: .sleep backoff :: failBlocks backoff (attempt + 1) n

theorem failBlocks_count_deleteRef (backoff : Int) :
    ∀ n attempt, (failBlocks backoff attempt n).count Event.deleteRef = 0 := by
  intro n
  induction n with
  | zero => intro a; rfl
  | succ m ih => intro a; simp [failBlocks, List.count_cons, ih (a + 1)]

theorem failBlocks_count_closePR (backoff : Int) :
    ∀ n attempt, (failBlocks backoff attempt n).count Event.closePR = 0 := by
  intro n
  induction n with
  | zero => intro a; rfl
  | succ m ih => intro a; simp [failBlocks, List.count_cons, ih (a + 1)]

theorem failBlocks_countP_sleep (backoff : Int) :
    ∀ n attempt, (failBlocks backoff attempt n).countP Event.isSleep = n := by
  intro n
  induction n with
  | zero => intro a; rfl
  | succ m ih =>
    intro a
    simp [failBlocks, List.countP_cons, ih (a + 1), Event.isSleep]

theorem mergeLoop_fail (env : GithubEnv) (backoff : Int) (N : Nat)
    (stF : Nat → Option Int) (msgF : Nat → Str) :
    ∀ fuel attempt, attempt + fuel = N + 1 → 1 ≤ fuel →
      (∀ k, attempt ≤ k → k ≤ N → env.merge k = .failure (stF k) (msgF k)) →
      mergeLoop env backoff (N : Int) attempt fuel =
        (failBlocks backoff attempt (fuel - 1) ++ [.mergeAttempt N, .closePR],
         .error (.mergeFailed (stF N) (msgF N))) := by
  intro fuel
  induction fuel with
  | zero => intro attempt _ h1; omega
  | succ f ih =>
    intro attempt hsum _ hm
    have hattempt : attempt ≤ N := by omega
    rw [mergeLoop]
    split
    next heq =>
      rw [hm attempt le_rfl hattempt] at heq
      cases heq
    next status msg heq =>
      rw [hm attempt le_rfl hattempt] at heq
      cases heq
      by_cases hf0 : f = 0
      · subst hf0
        have hAN : attempt = N := by omega
        subst hAN
        rw [if_neg (lt_irrefl _)]
        simp [failBlocks]
      · obtain ⟨f', rfl⟩ : ∃ f', f = f' + 1 := ⟨f - 1, by omega⟩
        have hlt : attempt < N := by omega
        rw [if_pos (by exact_mod_cast hlt)]
        rw [ih (attempt + 1) (by omega) (by omega)
          (fun k hk1 hk2 => hm k (by omega) hk2)]
        simp [failBlocks]

theorem mergeLoop_succeed (env : GithubEnv) (backoff : Int) (N : Nat)
    (stF : Nat → Option Int) (msgF : Nat → Str) (k : Nat) (hk : 1 ≤ k) (hkN : k ≤ N)
    (hs : env.merge k = .success)
    (hf : ∀ j, 1 ≤ j → j < k → env.merge j = .failure (stF j) (msgF j)) :
    ∀ fuel attempt, attempt + fuel = N + 1 → 1 ≤ attempt → attempt ≤ k →
      mergeLoop env backoff (N : Int) attempt fuel =
        (failBlocks backoff attempt (k - attempt) ++ [.mergeAttempt k, .deleteRef],
         .ok ()) := by
  intro fuel
  induction fuel with
  | zero => intro attempt h1 _ h3; omega
  | succ f ih =>
    intro attempt hsum ha1 hak
    by_cases hek : attempt = k
    · subst hek
      rw [mergeLoop]
      split
      next heq => simp [Nat.sub_self, failBlocks]
      next status msg heq => rw [hs] at heq; cases heq
    · have hlt : attempt < k := by omega
      rw [mergeLoop]
      split
      next heq =>
        rw [hf attempt ha1 hlt] at heq
        cases heq
      next status msg heq =>
        rw [hf attempt ha1 hlt] at heq
        cases heq
        rw [if_pos (by exact_mod_cast (by omega : attempt < N)),
          ih (attempt + 1) (by omega) (by omega) (by omega)]
        obtain ⟨d, hd⟩ : ∃ d, k - attempt = d + 1 := ⟨k - attempt - 1, by omega⟩
        rw [hd]
        have hsub : k - (attempt + 1) = d := by omega
        rw [hsub]
        simp [failBlocks]

theorem mergeLoop_first_attempt (env : GithubEnv) (backoff maxRetries : Int)
    (attempt : Nat) : ∀ fuel, 1 ≤ fuel →
    Event.mergeAttempt attempt ∈ (mergeLoop env backoff maxRetries attempt fuel).1 := by
  intro fuel hfuel
  obtain ⟨f, rfl⟩ : ∃ f, fuel = f + 1 := ⟨fuel - 1, by omega⟩
  rw [mergeLoop]
  cases env.merge attempt with
  | success => simp
  | failure st msg =>
    by_cases h : (attempt : Int) < maxRetries
    · simp [h]
    · simp [h]

theorem CreateCommit_ok_eq (env : GithubEnv) (o : CommitOptions) (evs : List Event)
    (hpre : createCommitPrelim env (defaultedOptions o) = (evs, Except.ok ())) :
    CreateCommit env o =
      (evs ++ (mergeLoop env (defaultedOptions o).retryBackoff
          (defaultedOptions o).maxRetries 1 (defaultedOptions o).maxRetries.toNat).1,
       (mergeLoop env (defaultedOptions o).retryBackoff
          (defaultedOptions o).maxRetries 1 (defaultedOptions o).maxRetries.toNat).2) := by
  rw [CreateCommit, hpre]

theorem prelim_count_zero (env : GithubEnv) (o : CommitOptions) (e : Event)
    (he : e.isLoopEvent = true) : (createCommitPrelim env o).1.count e = 0 :=
  List.count_eq_zero.mpr fun hm => by
    have h2 := createCommitPrelim_events env o e hm
    rw [he] at h2
    exact Bool.noConfusion h2

theorem prelim_countP_sleep_zero (env : GithubEnv) (o : CommitOptions) :
    (createCommitPrelim env o).1.countP Event.isSleep = 0 :=
  List.countP_eq_zero.mpr fun e hm => by
    have h2 := createCommitPrelim_events env o e hm
    intro hs
    cases e <;> simp_all [Event.isSleep, Event.isLoopEvent]

/-- C4: when every one of the (defaulted) `MaxRetries` merge attempts fails,
the apply terminates with `MergeFailed` carrying the last attempt's observed
status code and message, the pull request has been marked closed (the final
event), and the temporary branch is never deleted. -/
theorem createCommit_merge_exhausted (env : GithubEnv) (o : CommitOptions)
    (stF : Nat → Option Int) (msgF : Nat → Str) (N : Nat)
    (hN : 1 ≤ N) (hmr : (defaultedOptions o).maxRetries = (N : Int))
    (hpre : (createCommitPrelim env (defaultedOptions o)).2 = Except.ok ())
    (hm : ∀ k, 1 ≤ k → k ≤ N → env.merge k = .failure (stF k) (msgF k)) :
    (CreateCommit env o).2 = Except.error (.mergeFailed (stF N) (msgF N)) ∧
    (CreateCommit env o).1.getLast? = some Event.closePR ∧
    (CreateCommit env o).1.count Event.closePR = 1 ∧
    (CreateCommit env o).1.count Event.deleteRef = 0 := by
  have hpair : createCommitPrelim env (defaultedOptions o) =
      ((createCommitPrelim env (defaultedOptions o)).1, Except.ok ()) := by
    rw [← hpre]
  have hcc := CreateCommit_ok_eq env o _ hpair
  rw [hmr, Int.toNat_natCast] at hcc
  rw [mergeLoop_fail env (defaultedOptions o).retryBackoff N stF msgF N 1
    (by omega) (by omega) (fun k hk1 hk2 => hm k hk1 hk2)] at hcc
  rw [hcc]
  refine ⟨rfl, ?_, ?_, ?_⟩
  · rw [← List.append_assoc, List.getLast?_append]
    rfl
  · rw [List.count_append, List.count_append,
      prelim_count_zero env (defaultedOptions o) Event.closePR rfl,
      failBlocks_count_closePR]
    rfl
  · rw [List.count_append, List.count_append,
      prelim_count_zero env (defaultedOptions o) Event.deleteRef rfl,
      failBlocks_count_deleteRef]
    rfl

/-- C5: when the merge succeeds on attempt `k ≤ MaxRetries` after failing on
all earlier attempts, the apply terminates successfully, the temporary branch
is deleted exactly once, the pull request is never closed, and exactly `k-1`
backoff sleeps occur — one between each pair of consecutive attempts. -/
theorem createCommit_merge_eventually (env : GithubEnv) (o : CommitOptions)
    (stF : Nat → Option Int) (msgF : Nat → Str) (N k : Nat)
    (hk : 1 ≤ k) (hkN : k ≤ N) (hmr : (defaultedOptions o).maxRetries = (N : Int))
    (hpre : (createCommitPrelim env (defaultedOptions o)).2 = Except.ok ())
    (hs : env.merge k = .success)
    (hf : ∀ j, 1 ≤ j → j < k → env.merge j = .failure (stF j) (msgF j)) :
    (CreateCommit env o).2 = Except.ok () ∧
    (CreateCommit env o).1.count Event.deleteRef = 1 ∧
    (CreateCommit env o).1.count Event.closePR = 0 ∧
    (CreateCommit env o).1.countP Event.isSleep = k - 1 := by
  have hpair : createCommitPrelim env (defaultedOptions o) =
      ((createCommitPrelim env (defaultedOptions o)).1, Except.ok ()) := by
    rw [← hpre]
  have hcc := CreateCommit_ok_eq env o _ hpair
  rw [hmr, Int.toNat_natCast] at hcc
  rw [mergeLoop_succeed env (defaultedOptions o).retryBackoff N stF msgF k hk hkN
    hs hf N 1 (by omega) le_rfl hk] at hcc
  rw [hcc]
  refine ⟨rfl, ?_, ?_, ?_⟩
  · rw [List.count_append, List.count_append,
      prelim_count_zero env (defaultedOptions o) Event.deleteRef rfl,
      failBlocks_count_deleteRef]
    rfl
  · rw [List.count_append, List.count_append,
      prelim_count_zero env (defaultedOptions o) Event.closePR rfl,
      failBlocks_count_closePR]
    rfl
  · rw [List.countP_append, List.countP_append,
      prelim_countP_sleep_zero env (defaultedOptions o),
      failBlocks_countP_sleep]
    simp [List.countP_cons, Event.isSleep]

theorem defaultedOptions_idem (o : CommitOptions) :
    defaultedOptions (defaultedOptions o) = defaultedOptions o := by
  simp only [defaultedOptions]
  congr 1
  · split_ifs <;> omega
  · split_ifs with h1 h2 h3 <;> first
      | rfl
      | (exfalso; revert h1 h2; try revert h3; simp [second]; omega)

/-- C10: `CreateCommit` substitutes `MaxRetries <= 0 ↦ 3` and
`RetryBackoff = 0 ↦ 5s` up front — running it on raw options equals running
it on defaulted options — the defaulted retry budget is always positive, and
whenever the preliminary steps succeed at least the first merge attempt is
performed, so no caller can configure an apply with zero merge attempts. -/
theorem createCommit_defaulting :
    (∀ o : CommitOptions, o.maxRetries ≤ 0 → (defaultedOptions o).maxRetries = 3) ∧
    (∀ o : CommitOptions, o.retryBackoff = 0 →
      (defaultedOptions o).retryBackoff = 5 * second) ∧
    (∀ o : CommitOptions, 1 ≤ (defaultedOptions o).maxRetries) ∧
    (∀ (env : GithubEnv) (o : CommitOptions),
      CreateCommit env o = CreateCommit env (defaultedOptions o)) ∧
    (∀ (env : GithubEnv) (o : CommitOptions),
      (createCommitPrelim env (defaultedOptions o)).2 = Except.ok () →
      Event.mergeAttempt 1 ∈ (CreateCommit env o).1) := by
  refine ⟨?_, ?_, ?_, ?_, ?_⟩
  · intro o h; simp [defaultedOptions, h]
  · intro o h; simp [defaultedOptions, h]
  · intro o; simp only [defaultedOptions]; split_ifs <;> omega
  · intro env o
    show CreateCommit env o = CreateCommit env (defaultedOptions o)
    rw [CreateCommit, CreateCommit, defaultedOptions_idem]
  · intro env o hpre
    have hpair : createCommitPrelim env (defaultedOptions o) =
        ((createCommitPrelim env (defaultedOptions o)).1, Except.ok ()) := by
      rw [← hpre]
    rw [CreateCommit_ok_eq env o _ hpair]
    refine List.mem_append.mpr (Or.inr ?_)
    refine mergeLoop_first_attempt env _ _ 1 _ ?_
    have h1 : 1 ≤ (defaultedOptions o).maxRetries := by
      simp only [defaultedOptions]; split_ifs <;> omega
    omega

/-- A concrete environment in which every merge attempt fails with HTTP 405. -/
def testEnvAllFail : GithubEnv :=
  { defaultBranch := Except.ok "master".data
    shaForBranch := fun _ => Except.ok "sha0".data
    createTree := Except.ok "tree0".data
    getCommit := Except.ok "parent0".data
    readGpgKey := Except.ok ()
    createCommitRes := Except.ok "commit0".data
    createRefRes := Except.ok ()
    createPRRes := Except.ok 7
    merge := fun _ => MergeOutcome.failure (some 405) "Base branch was modified".data
    deleteRefRes := Except.ok ()
    editPRRes := Except.ok ()
    nowUnixNano := 0 }

/-- The same environment except that the third merge attempt succeeds. -/
def testEnvThird : GithubEnv :=
  { testEnvAllFail with
    merge := fun k =>
      if k < 3 then MergeOutcome.failure (some 405) "Base branch was modified".data
      else MergeOutcome.success }

/-- Concrete commit options as built by `resourceFileCreateOrUpdate`
(`MaxRetries = 3`, `RetryBackoff = 5s`). -/
def testOptions : CommitOptions :=
  { repoOwner := "form3tech-oss".data
    repoName := "enforcement-test-repo".data
    commitMessage := "Adding CODEOWNERS file".data
    gpgPassphrase := []
    gpgPrivateKey := []
    changes := []
    baseTreeOverride := none
    branch := "master".data
    username := "u".data
    email := "e".data
    maxRetries := 3
    retryBackoff := 5 * second
    pullRequestSourceBranchName := "terraform-provider-codeowners-0".data
    pullRequestBody := [] }

/-- C4 witness: with every merge attempt failing with HTTP 405, the concrete
apply returns `MergeFailed` with that status, closes the PR last, and never
deletes the temporary branch. -/
theorem createCommit_merge_exhausted_witness :
    ((1 ≤ 3 ∧ (defaultedOptions testOptions).maxRetries = ((3 : Nat) : Int) ∧
      (createCommitPrelim testEnvAllFail (defaultedOptions testOptions)).2 =
        Except.ok () ∧
      (∀ k, 1 ≤ k → k ≤ 3 → testEnvAllFail.merge k =
        .failure (some 405) "Base branch was modified".data)) ∧
     (CreateCommit testEnvAllFail testOptions).2 =
        Except.error (.mergeFailed (some 405) "Base branch was modified".data) ∧
     (CreateCommit testEnvAllFail testOptions).1.getLast? = some Event.closePR ∧
     (CreateCommit testEnvAllFail testOptions).1.count Event.closePR = 1 ∧
     (CreateCommit testEnvAllFail testOptions).1.count Event.deleteRef = 0) :=
  ⟨⟨by decide, by decide, rfl, fun k _ _ => rfl⟩,
   createCommit_merge_exhausted testEnvAllFail testOptions
     (fun _ => some 405) (fun _ => "Base branch was modified".data) 3
     (by decide) (by decide) rfl (fun k _ _ => rfl)⟩

/-- C5 witness: with the merge failing twice and succeeding on the third
attempt under `MaxRetries = 3`, the concrete apply succeeds, deletes the
temporary branch exactly once, and sleeps exactly twice. -/
theorem createCommit_merge_eventually_witness :
    ((testEnvThird.merge 3 = MergeOutcome.success ∧
      (∀ j, 1 ≤ j → j < 3 → testEnvThird.merge j =
        .failure (some 405) "Base branch was modified".data) ∧
      (createCommitPrelim testEnvThird (defaultedOptions testOptions)).2 =
        Except.ok ()) ∧
     (CreateCommit testEnvThird testOptions).2 = Except.ok () ∧
     (CreateCommit testEnvThird testOptions).1.count Event.deleteRef = 1 ∧
     (CreateCommit testEnvThird testOptions).1.count Event.closePR = 0 ∧
     (CreateCommit testEnvThird testOptions).1.countP Event.isSleep = 3 - 1) :=
  ⟨⟨rfl, by intro j h1 h2; interval_cases j <;> rfl, rfl⟩,
   createCommit_merge_eventually testEnvThird testOptions
     (fun _ => some 405) (fun _ => "Base branch was modified".data) 3 3
     (by decide) (by decide) rfl rfl rfl
     (by intro j h1 h2; interval_cases j <;> rfl)⟩

/-- C10 witness: the defaulting applied to zero/negative retry options, and a
first merge attempt occurring in the concrete apply. -/
theorem createCommit_defaulting_witness :
    ((-1 : Int) ≤ 0 ∧
     (defaultedOptions { testOptions with maxRetries := -1 }).maxRetries = 3 ∧
     (defaultedOptions { testOptions with retryBackoff := 0 }).retryBackoff =
       5 * second ∧
     (createCommitPrelim testEnvAllFail (defaultedOptions testOptions)).2 =
       Except.ok () ∧
     Event.mergeAttempt 1 ∈ (CreateCommit testEnvAllFail testOptions).1) :=
  ⟨by decide,
   createCommit_defaulting.1 _ (by decide),
   createCommit_defaulting.2.1 _ rfl,
   rfl,
   createCommit_defaulting.2.2.2.2 testEnvAllFail testOptions rfl⟩

/-! ### C6: the commit-signing payload (`signCommit`, README.md revision) -/

/-- Decimal rendering of a natural number, modelling `fmt`'s `%d`. -/
def natToDigits (n : Nat) : Str :=
  if h : n < 10 then [Char.ofNat (48 + n)]
  else natToDigits (n / 10) ++ [Char.ofNat (48 + n % 10)]
decreasing_by exact Nat.div_lt_self (by omega) (by omega)

/-- Decimal rendering of an integer, modelling `%d` on a Unix timestamp. -/
def intToStr : Int → Str
  | .ofNat n => natToDigits n
  | .negSucc n => '-' :: natToDigits (n + 1)

theorem nl_not_mem_natToDigits : ∀ n : Nat, '\n' ∉ natToDigits n := by
  intro n
  induction n using Nat.strong_induction_on with
  | _ n ih =>
    rw [natToDigits]
    by_cases h : n < 10
    · rw [dif_pos h]
      intro hm
      have heq := List.mem_singleton.mp hm
      interval_cases n <;> exact absurd heq (by decide)
    · rw [dif_neg h]
      intro hm
      rcases List.mem_append.mp hm with hm | hm
      · exact ih (n / 10) (Nat.div_lt_self (by omega) (by omega)) hm
      · have heq := List.mem_singleton.mp hm
        have hlt : n % 10 < 10 := Nat.mod_lt _ (by omega)
        generalize n % 10 = m at heq hlt
        interval_cases m <;> exact absurd heq (by decide)

theorem nl_not_mem_intToStr (i : Int) : '\n' ∉ intToStr i := by
  cases i with
  | ofNat n => exact nl_not_mem_natToDigits n
  | negSucc n =>
    intro hm
    rcases List.mem_cons.mp hm with h | h
    · exact absurd h (by decide)
    · exact nl_not_mem_natToDigits (n + 1) h

/-- The commit data entering the signing payload (`signCommit` reads the tree
SHA, the sole parent's SHA, the author identity and date, and the message;
the committer fields passed to the format string are the author's). -/
structure GitCommit where
  treeSha : Str
  parentSha : Str
  authorName : Str
  authorEmail : Str
  authorDateUnix : Int
  message : Str

/-- The identity payload fragment `<name> <email> <unix-seconds> +0000`,
as produced by `%s <%s> %d +0000`. -/
def identLine (name email : Str) (unix : Int) : Str :=
  name ++ " <".data ++ email ++ "> ".data ++ intToStr unix ++ " +0000".data

/-- Translated from `signCommit` (README.md lines 130-163): the payload
handed to `createSignature`, built by the format string
`"tree %s\nparent %s\nauthor %s <%s> %d +0000\ncommitter %s <%s> %d +0000\n\n%s"`
with the author's name, email and date passed for both the author and the
committer fields. -/
def signPayload (c : GitCommit) : Str :=
  "tree ".data ++ c.treeSha ++ "\n".data ++
  "parent ".data ++ c.parentSha ++ "\n".data ++
  "author ".data ++ identLine c.authorName c.authorEmail c.authorDateUnix ++ "\n".data ++
  "committer ".data ++ identLine c.authorName c.authorEmail c.authorDateUnix ++ "\n".data ++
  "\n".data ++ c.message

theorem nl_not_mem_identLine {name email : Str} (unix : Int)
    (hn : '\n' ∉ name) (he : '\n' ∉ email) :
    '\n' ∉ identLine name email unix := by
  intro hm
  simp only [identLine, List.append_assoc, List.mem_append] at hm
  rcases hm with h | h | h | h | h | h
  · exact hn h
  · exact absurd h (by decide)
  · exact he h
  · exact absurd h (by decide)
  · exact nl_not_mem_intToStr unix h
  · exact absurd h (by decide)

/-- C6: the signing payload splits on newlines into exactly a `tree` line, a
`parent` line, an `author` line, a `committer` line that carries the very same
identity fragment (name, email, timestamp with fixed `+0000` offset) as the
author line, one blank line, and then the commit message — in this order. -/
theorem signPayload_structure (c : GitCommit)
    (h1 : '\n' ∉ c.treeSha) (h2 : '\n' ∉ c.parentSha)
    (h3 : '\n' ∉ c.authorName) (h4 : '\n' ∉ c.authorEmail) :
    splitOnChar '\n' (signPayload c) =
      ["tree ".data ++ c.treeSha,
       "parent ".data ++ c.parentSha,
       "author ".data ++ identLine c.authorName c.authorEmail c.authorDateUnix,
       "committer ".data ++ identLine c.authorName c.authorEmail c.authorDateUnix,
       []] ++ splitOnChar '\n' c.message := by
  have hident : '\n' ∉ identLine c.authorName c.authorEmail c.authorDateUnix :=
    nl_not_mem_identLine c.authorDateUnix h3 h4
  have hsp : signPayload c =
      ("tree ".data ++ c.treeSha) ++ '\n' ::
        (("parent ".data ++ c.parentSha) ++ '\n' ::
          (("author ".data ++ identLine c.authorName c.authorEmail c.authorDateUnix) ++ '\n' ::
            (("committer ".data ++ identLine c.authorName c.authorEmail c.authorDateUnix) ++ '\n' ::
              ('\n' :: c.message)))) := by
    simp [signPayload, List.append_assoc]
  have hmem : ∀ (pre : Str), '\n' ∉ pre → ∀ (s : Str), '\n' ∉ s → '\n' ∉ pre ++ s := by
    intro pre hp s hs hm
    rcases List.mem_append.mp hm with h | h
    · exact hp h
    · exact hs h
  rw [hsp,
    splitOnChar_append_sep '\n' _ _ (hmem _ (by decide) _ h1),
    splitOnChar_append_sep '\n' _ _ (hmem _ (by decide) _ h2),
    splitOnChar_append_sep '\n' _ _ (hmem _ (by decide) _ hident),
    splitOnChar_append_sep '\n' _ _ (hmem _ (by decide) _ hident)]
  simp [splitOnChar]

/-- C6 witness: the payload structure for a concrete commit. -/
theorem signPayload_structure_witness :
    ('\n' ∉ ("tsha".data : Str) ∧ '\n' ∉ ("psha".data : Str) ∧
     '\n' ∉ ("jim".data : Str) ∧ '\n' ∉ ("jim@example.com".data : Str)) ∧
    splitOnChar '\n'
        (signPayload ⟨"tsha".data, "psha".data, "jim".data,
          "jim@example.com".data, 1567700000, "Adding CODEOWNERS file".data⟩) =
      ["tree ".data ++ "tsha".data,
       "parent ".data ++ "psha".data,
       "author ".data ++ identLine "jim".data "jim@example.com".data 1567700000,
       "committer ".data ++ identLine "jim".data "jim@example.com".data 1567700000,
       []] ++ splitOnChar '\n' "Adding CODEOWNERS file".data :=
  ⟨⟨by decide, by decide, by decide, by decide⟩,
   signPayload_structure ⟨"tsha".data, "psha".data, "jim".data,
     "jim@example.com".data, 1567700000, "Adding CODEOWNERS file".data⟩
     (by decide) (by decide) (by decide) (by decide)⟩

/-! ### The resource layer (`resource_file.go`) -/

/-- The remote path of the managed file. -/
def codeownersPath : Str := ".github/CODEOWNERS".data

/-- Model of the `File` struct. -/
structure File where
  repositoryOwner : Str
  repositoryName : Str
  branch : Str
  ruleset : Ruleset
deriving DecidableEq, Repr

/-- The slice of terraform resource state this resource reads and writes: the
identity string and the schema fields.  A set-valued username field is
modelled by the list `schema.Set.List()` would yield. -/
structure ResourceState where
  id : Str
  repositoryOwner : Str
  repositoryName : Str
  branch : Str
  rules : List (Str × List Str)
deriving DecidableEq, Repr

/-- Model of `providerConfiguration` (provider.go): the fields used by the
resource functions (`commitMessageLead` models the commit-message lead-in the
provider configures for every generated commit message). -/
structure ProviderConfig where
  commitMessageLead : Str
  ghUsername : Str
  ghEmail : Str
  gpgKey : Str
  gpgPassphrase : Str
deriving DecidableEq, Repr

/-- Model of `formatCommitMessage` (resource_file.go lines 355-360). -/
def formatCommitMessage (p m : Str) : Str :=
  if p = [] then m else trimStr p ++ " ".data ++ m

/-- Model of `flattenRuleset`/`flattenStringList` (lines 292-310): each rule
becomes its pattern plus the sorted username list handed to `schema.NewSet`. -/
def flattenRuleset (rs : Ruleset) : List (Str × List Str) :=
  rs.map fun r => (r.pattern, sortStrs r.usernames)

/-- Model of `expandRuleset` (lines 338-353): usernames are read from the
set, a leading `@` is stripped from each, and the result is sorted. -/
def expandRuleset (rules : List (Str × List Str)) : Ruleset :=
  rules.map fun p => ⟨p.1, sortStrs (p.2.map stripAt)⟩

/-- Model of `flattenFile` (lines 278-290): sets the identity string to
`<owner>/<name>:<branch>` together with the schema fields. -/
def flattenFile (f : File) : ResourceState :=
  { id := f.repositoryOwner ++ "/".data ++ f.repositoryName ++ ":".data ++ f.branch
    repositoryOwner := f.repositoryOwner
    repositoryName := f.repositoryName
    branch := f.branch
    rules := flattenRuleset f.ruleset }

/-- Model of `strings.SplitN(s, string(sep), 2)`: the pieces before and after
the first occurrence of `sep`, when one exists. -/
def splitFirst (sep : Char) : Str → Option (Str × Str)
  | [] => none
  | c :: cs =>
    if c = sep then some ([], cs)
    else
      match splitFirst sep cs with
      | none => none
      | some (a, b) => some (c :: a, b)

/-- Model of `expandFile` (lines 312-336): fields come from the schema; a
nonempty identity string of the form `<owner>/<name>[:branch]` overrides
them (import support). -/
def expandFile (d : ResourceState) : File :=
  let fields :=
    if d.id = ([] : Str) then (d.repositoryOwner, d.repositoryName, d.branch)
    else
      match splitFirst '/' d.id with
      | none => (d.repositoryOwner, d.repositoryName, d.branch)
      | some (ow, rest) =>
        match splitFirst ':' rest with
        | none => (ow, rest, d.branch)
        | some (nm, br) => (ow, nm, br)
  ⟨fields.1, fields.2.1, fields.2.2, expandRuleset d.rules⟩

/-- The outcome of the `GetContents` call made by `resourceFileRead`:
a 404 response, a transport/5xx error, a content-decoding error, or the raw
file body. -/
inductive ContentsResult where
  | notFound
  | apiError (msg : Str)
  | contentError (msg : Str)
  | found (raw : Str)
deriving DecidableEq, Repr

/-- The remote outcome seen by one `resourceFileRead`. -/
structure ReadEnv where
  getContents : ContentsResult

/-- Model of `resourceFileRead` (lines 144-174): on 404 clear the identity
and succeed; on failure error out; otherwise parse the remote body and
flatten it into the state. -/
def resourceFileRead (env : ReadEnv) (d : ResourceState) : Except Str ResourceState :=
  let file := expandFile d
  match env.getContents with
  | .notFound => .ok { d with id := [] }
  | .apiError msg =>
    .error ("failed to retrieve file ".data ++ codeownersPath ++ ": ".data ++ msg)
  | .contentError msg =>
    .error ("failed to retrieve content for ".data ++ codeownersPath ++ ": ".data ++ msg)
  | .found raw => .ok (flattenFile { file with ruleset := parseRulesFile raw })

/-- The outcome of the `GetFile` existence check made by `resourceFileDelete`:
`ErrNotFound`, another error, or the found file's path. -/
inductive FileResult where
  | notFound
  | getError (msg : Str)
  | found (path : Str)
deriving DecidableEq, Repr

/-- The remote outcomes seen by one `resourceFileDelete`. -/
structure DeleteEnv where
  getFile : FileResult
  shaForBranch : Str → Except Str Str
  commitEnv : GithubEnv

/-- The `CommitOptions` built by `resourceFileDelete` (lines 257-272): a
single deletion tombstone (`SHA: nil`) for the found path, the branch SHA as
`BaseTreeOverride`, `MaxRetries 3` and a 5-second backoff. -/
def deleteCommitOptions (cfg : ProviderConfig) (file : File) (path s : Str)
    (now : Int) : CommitOptions :=
  { repoOwner := file.repositoryOwner
    repoName := file.repositoryName
    commitMessage :=
      formatCommitMessage cfg.commitMessageLead "Deleting CODEOWNERS file".data
    gpgPassphrase := cfg.gpgPassphrase
    gpgPrivateKey := cfg.gpgKey
    changes := [⟨none, some path, some "100644".data, some "blob".data, none⟩]
    baseTreeOverride := some s
    branch := file.branch
    username := cfg.ghUsername
    email := cfg.ghEmail
    maxRetries := 3
    retryBackoff := 5 * second
    pullRequestSourceBranchName :=
      "terraform-provider-codeowners-".data ++ intToStr now
    pullRequestBody := [] }

/-- Model of `resourceFileDelete` (lines 227-276): check existence first —
`ErrNotFound` is a no-op success — then resolve the branch SHA and commit a
tree with the file removed via `CreateCommit`. -/
def resourceFileDelete (cfg : ProviderConfig) (env : DeleteEnv) (d : ResourceState) :
    List Event × Except CommitError Unit :=
  let file := expandFile d
  match env.getFile with
  | .notFound => ([.getFile], .ok ())
  | .getError msg => ([.getFile], .error (.remote msg))
  | .found path =>
    match env.shaForBranch file.branch with
    | .error e => ([.getFile, .getShaForBranch], .error (.remote e))
    | .ok s =>
      let cc := CreateCommit env.commitEnv
        (deleteCommitOptions cfg file path s env.commitEnv.nowUnixNano)
      (.getFile :: .getShaForBranch :: cc.1, cc.2)

/-- Remote calls that mutate the repository (as opposed to reads and local
waits). -/
def Event.isRemoteMutation : Event → Bool
  | .createTree => true
  | .createCommit => true
  | .createRef => true
  | .createPR => true
  | .mergeAttempt _ => true
  | .deleteRef => true
  | .closePR => true
  | _ => false

/-! ### C7: absent remote file is a non-fatal no-op on read and delete -/

/-- C7: when the remote `CODEOWNERS` file is absent, `resourceFileDelete`
performs only the existence check and succeeds — no remote mutation at all —
and `resourceFileRead` clears the resource identity and succeeds. -/
theorem notFound_read_delete (cfg : ProviderConfig) (denv : DeleteEnv)
    (renv : ReadEnv) (d : ResourceState)
    (hd : denv.getFile = .notFound) (hr : renv.getContents = .notFound) :
    resourceFileDelete cfg denv d = ([Event.getFile], Except.ok ()) ∧
    (∀ e ∈ (resourceFileDelete cfg denv d).1, e.isRemoteMutation = false) ∧
    resourceFileRead renv d = Except.ok { d with id := [] } := by
  have hdel : resourceFileDelete cfg denv d = ([Event.getFile], Except.ok ()) := by
    simp [resourceFileDelete, hd]
  refine ⟨hdel, ?_, ?_⟩
  · rw [hdel]
    intro e he
    fin_cases he
    rfl
  · simp [resourceFileRead, hr]

/-- A concrete delete environment whose existence check reports `ErrNotFound`. -/
def testDeleteEnvNotFound : DeleteEnv :=
  { getFile := .notFound
    shaForBranch := fun _ => Except.ok "sha0".data
    commitEnv := testEnvAllFail }

/-- A concrete provider configuration. -/
def testConfig : ProviderConfig :=
  { commitMessageLead := []
    ghUsername := "u".data
    ghEmail := "e".data
    gpgKey := []
    gpgPassphrase := [] }

/-- A concrete resource state. -/
def testState : ResourceState :=
  { id := "form3tech-oss/repo:master".data
    repositoryOwner := "form3tech-oss".data
    repositoryName := "repo".data
    branch := "master".data
    rules := [("*".data, ["expert".data])] }

/-- C7 witness: the no-op delete and identity-clearing read on concrete
inputs. -/
theorem notFound_read_delete_witness :
    (testDeleteEnvNotFound.getFile = FileResult.notFound ∧
     (ReadEnv.mk ContentsResult.notFound).getContents = ContentsResult.notFound) ∧
    resourceFileDelete testConfig testDeleteEnvNotFound testState =
      ([Event.getFile], Except.ok ()) ∧
    resourceFileRead (ReadEnv.mk ContentsResult.notFound) testState =
      Except.ok { testState with id := [] } :=
  ⟨⟨rfl, rfl⟩,
   (notFound_read_delete testConfig testDeleteEnvNotFound
     (ReadEnv.mk ContentsResult.notFound) testState rfl rfl).1,
   (notFound_read_delete testConfig testDeleteEnvNotFound
     (ReadEnv.mk ContentsResult.notFound) testState rfl rfl).2.2⟩

/-! ### C8: the identity string round trip -/

theorem splitFirst_append (sep : Char) (a b : Str) (h : sep ∉ a) :
    splitFirst sep (a ++ sep :: b) = some (a, b) := by
  induction a with
  | nil => simp [splitFirst]
  | cons c cs ih =>
    simp only [List.mem_cons, not_or] at h
    have hc : ¬(c = sep) := fun hh => h.1 hh.symm
    simp [splitFirst, hc, ih h.2]

/-- C8 (amended): flattening always writes the identity string
`<owner>/<name>:<branch>`, and — whenever the owner contains no `/` and the
repository name contains no `:`, so that the format is unambiguous —
expanding the flattened state recovers the owner, name and branch exactly. -/
theorem file_identity_roundtrip (f : File)
    (ho : '/' ∉ f.repositoryOwner) (hn : ':' ∉ f.repositoryName) :
    (flattenFile f).id =
      f.repositoryOwner ++ "/".data ++ f.repositoryName ++ ":".data ++ f.branch ∧
    (expandFile (flattenFile f)).repositoryOwner = f.repositoryOwner ∧
    (expandFile (flattenFile f)).repositoryName = f.repositoryName ∧
    (expandFile (flattenFile f)).branch = f.branch := by
  have hid : (flattenFile f).id =
      f.repositoryOwner ++ '/' :: (f.repositoryName ++ ':' :: f.branch) := by
    show f.repositoryOwner ++ "/".data ++ f.repositoryName ++ ":".data ++ f.branch =
      f.repositoryOwner ++ '/' :: (f.repositoryName ++ ':' :: f.branch)
    simp only [show "/".data = ['/'] from rfl, show ":".data = [':'] from rfl,
      List.singleton_append, List.append_assoc, List.cons_append, List.nil_append]
  have hne : (flattenFile f).id ≠ [] := by
    rw [hid]
    intro hcontra
    rcases List.append_eq_nil.mp hcontra with ⟨_, h2⟩
    exact List.noConfusion h2
  have hsplit1 : splitFirst '/' (flattenFile f).id =
      some (f.repositoryOwner, f.repositoryName ++ ':' :: f.branch) := by
    rw [hid]
    exact splitFirst_append '/' _ _ ho
  have hsplit2 : splitFirst ':' (f.repositoryName ++ ':' :: f.branch) =
      some (f.repositoryName, f.branch) := splitFirst_append ':' _ _ hn
  refine ⟨rfl, ?_, ?_, ?_⟩ <;>
    simp [expandFile, hne, hsplit1, hsplit2]

/-- C8 counterexample: for an owner containing `/` the identity string is
ambiguous and expanding does not recover the owner — the claim fails without
the format-unambiguity proviso. -/
theorem file_identity_counterexample :
    (flattenFile ⟨"a/b".data, "c".data, "d".data, []⟩).id =
      "a/b".data ++ "/".data ++ "c".data ++ ":".data ++ "d".data ∧
    (expandFile (flattenFile ⟨"a/b".data, "c".data, "d".data, []⟩)).repositoryOwner ≠
      ("a/b".data : Str) := by
  exact ⟨rfl, by decide⟩

/-- C8 witness: the round trip on a concrete file. -/
theorem file_identity_roundtrip_witness :
    ('/' ∉ ("form3tech-oss".data : Str) ∧ ':' ∉ ("repo".data : Str)) ∧
    (flattenFile ⟨"form3tech-oss".data, "repo".data, "master".data, []⟩).id =
      "form3tech-oss".data ++ "/".data ++ "repo".data ++ ":".data ++ "master".data ∧
    (expandFile (flattenFile ⟨"form3tech-oss".data, "repo".data, "master".data, []⟩)).repositoryOwner =
      "form3tech-oss".data ∧
    (expandFile (flattenFile ⟨"form3tech-oss".data, "repo".data, "master".data, []⟩)).repositoryName =
      "repo".data ∧
    (expandFile (flattenFile ⟨"form3tech-oss".data, "repo".data, "master".data, []⟩)).branch =
      "master".data :=
  ⟨⟨by decide, by decide⟩,
   file_identity_roundtrip ⟨"form3tech-oss".data, "repo".data, "master".data, []⟩
     (by decide) (by decide)⟩

/-! ### C9: the username diff-suppression cache
(`usernamesDiffSupressFunc`, resource_file.go lines 82-137) -/

/-- Model of the key manipulation of lines 88-93: chop the element index off
after the last `.` (`strings.LastIndex`), yielding the set's own key; a key
without a dot is left alone. -/
def parentKey (key : Str) : Str :=
  if '.' ∈ key then ((key.reverse.dropWhile fun c => !(c = '.')).tail).reverse
  else key

/-- One invocation of the `DiffSuppressFunc`: the resource identity, the
element key the callback receives, and the old/new username sets
`d.GetChange` yields for the parent key (`none` models a `nil` value or a
failed `*schema.Set` cast). -/
structure DiffCall where
  id : Str
  elementKey : Str
  oldData : Option (List Str)
  newData : Option (List Str)
deriving DecidableEq, Repr

/-- The cache key of line 95: `fmt.Sprintf("%s.%s", d.Id(), key)`. -/
def cacheKeyOf (c : DiffCall) : Str := c.id ++ '.' :: parentKey c.elementKey

/-- The cache-free comparison of lines 100-134: both sides must be present,
of equal size, and equal as sorted `@`-stripped username lists. -/
def diffCore (oldData newData : Option (List Str)) : Bool :=
  match oldData, newData with
  | some o, some n =>
    if o.length ≠ n.length then false
    else decide (sortStrs (o.map stripAt) = sortStrs (n.map stripAt))
  | _, _ => false

/-- Model of `sync.Map.Load` on the association-list cache. -/
def cacheFind (k : Str) : List (Str × Bool) → Option Bool
  | [] => none
  | (k', b) :: rest => if k' = k then some b else cacheFind k rest

/-- One call with the cache in place: a hit returns the cached value
untouched; on a miss the comparison runs, and only a full comparison stores
its result (the `nil`-data, failed-cast and length-mismatch early returns of
lines 101-119 do not reach the `Store` of line 135). -/
def usernamesDiffStep (cache : List (Str × Bool)) (c : DiffCall) :
    Bool × List (Str × Bool) :=
  let ck := cacheKeyOf c
  match cacheFind ck cache with
  | some b => (b, cache)
  | none =>
    match c.oldData, c.newData with
    | some o, some n =>
      if o.length ≠ n.length then (false, cache)
      else
        let result := decide (sortStrs (o.map stripAt) = sortStrs (n.map stripAt))
        (result, (ck, result) :: cache)
    | _, _ => (false, cache)

/-- A sequence of calls through the shared cache, returning each call's
suppression decision. -/
def usernamesDiffRun : List (Str × Bool) → List DiffCall → List Bool
  | _, [] => []
  | cache, c :: cs =>
    let step := usernamesDiffStep cache c
    step.1 :: usernamesDiffRun step.2 cs

theorem cacheFind_mem {k : Str} {b : Bool} :
    ∀ {cache : List (Str × Bool)}, cacheFind k cache = some b → (k, b) ∈ cache := by
  intro cache
  induction cache with
  | nil => intro h; cases h
  | cons p rest ih =>
    obtain ⟨k', b'⟩ := p
    intro h
    rw [cacheFind] at h
    by_cases hk : k' = k
    · rw [if_pos hk] at h
      cases h
      subst hk
      exact List.mem_cons_self _ _
    · rw [if_neg hk] at h
      exact List.mem_cons_of_mem _ (ih h)

theorem usernamesDiffRun_aux :
    ∀ (calls : List DiffCall) (cache : List (Str × Bool)),
      (∀ k b, (k, b) ∈ cache → ∀ c ∈ calls, cacheKeyOf c = k →
        diffCore c.oldData c.newData = b) →
      (∀ c1 ∈ calls, ∀ c2 ∈ calls, cacheKeyOf c1 = cacheKeyOf c2 →
        c1.oldData = c2.oldData ∧ c1.newData = c2.newData) →
      usernamesDiffRun cache calls =
        calls.map fun c => diffCore c.oldData c.newData := by
  intro calls
  induction calls with
  | nil => intro cache _ _; rfl
  | cons c cs ih =>
    intro cache hinv huni
    have hinv' : ∀ k b, (k, b) ∈ cache → ∀ c' ∈ cs, cacheKeyOf c' = k →
        diffCore c'.oldData c'.newData = b :=
      fun k b' hkb c' hc' hck => hinv k b' hkb c' (List.mem_cons_of_mem c hc') hck
    have huni' : ∀ c1 ∈ cs, ∀ c2 ∈ cs, cacheKeyOf c1 = cacheKeyOf c2 →
        c1.oldData = c2.oldData ∧ c1.newData = c2.newData :=
      fun c1 h1 c2 h2 hk =>
        huni c1 (List.mem_cons_of_mem c h1) c2 (List.mem_cons_of_mem c h2) hk
    simp only [usernamesDiffRun, List.map_cons]
    cases hfind : cacheFind (cacheKeyOf c) cache with
    | some b =>
      have hb : diffCore c.oldData c.newData = b :=
        hinv _ b (cacheFind_mem hfind) c (List.mem_cons_self c cs) rfl
      have hstep : usernamesDiffStep cache c = (b, cache) := by
        simp [usernamesDiffStep, hfind]
      rw [hstep, hb]
      exact congrArg _ (ih cache hinv' huni')
    | none =>
      cases ho : c.oldData with
      | none =>
        have hstep : usernamesDiffStep cache c = (false, cache) := by
          simp [usernamesDiffStep, hfind, ho]
        rw [hstep, show diffCore none c.newData = false from rfl]
        exact congrArg _ (ih cache hinv' huni')
      | some o =>
        cases hn : c.newData with
        | none =>
          have hstep : usernamesDiffStep cache c = (false, cache) := by
            simp [usernamesDiffStep, hfind, ho, hn]
          rw [hstep, show diffCore (some o) none = false from rfl]
          exact congrArg _ (ih cache hinv' huni')
        | some n =>
          by_cases hl : o.length ≠ n.length
          · have hstep : usernamesDiffStep cache c = (false, cache) := by
              simp only [usernamesDiffStep, hfind, ho, hn]
              rw [if_pos hl]
            have hdc : diffCore (some o) (some n) = false := by
              simp [diffCore, hl]
            rw [hstep, hdc]
            exact congrArg _ (ih cache hinv' huni')
          · have hstep : usernamesDiffStep cache c =
                (decide (sortStrs (o.map stripAt) = sortStrs (n.map stripAt)),
                 (cacheKeyOf c,
                   decide (sortStrs (o.map stripAt) = sortStrs (n.map stripAt))) ::
                   cache) := by
              simp only [usernamesDiffStep, hfind, ho, hn]
              rw [if_neg hl]
            have hcore : diffCore (some o) (some n) =
                decide (sortStrs (o.map stripAt) = sortStrs (n.map stripAt)) := by
              simp [diffCore, hl]
            have hinv2 : ∀ k b,
                (k, b) ∈ (cacheKeyOf c,
                  decide (sortStrs (o.map stripAt) = sortStrs (n.map stripAt))) ::
                    cache →
                ∀ c' ∈ cs, cacheKeyOf c' = k → diffCore c'.oldData c'.newData = b := by
              intro k b' hkb c' hc' hck
              rcases List.mem_cons.mp hkb with heq | hkb'
              · cases heq
                have hdata := huni c (List.mem_cons_self c cs) c'
                  (List.mem_cons_of_mem c hc') hck.symm
                rw [show c'.oldData = c.oldData from hdata.1.symm,
                  show c'.newData = c.newData from hdata.2.symm, ho, hn]
                exact hcore
              · exact hinv' k b' hkb' c' hc' hck
            rw [hstep, hcore]
            exact congrArg _ (ih _ hinv2 huni')

/-- C9 (amended): the memoization cache is transparent provided every pair of
calls sharing a cache key (resource identity + set key) observes the same
old/new data — as within a single reconciliation pass; then the decisions
with the cache equal the cache-free comparisons. -/
theorem usernamesDiff_cache_transparent (calls : List DiffCall)
    (huni : ∀ c1 ∈ calls, ∀ c2 ∈ calls, cacheKeyOf c1 = cacheKeyOf c2 →
      c1.oldData = c2.oldData ∧ c1.newData = c2.newData) :
    usernamesDiffRun [] calls = calls.map fun c => diffCore c.oldData c.newData :=
  usernamesDiffRun_aux calls [] (fun k b hkb => absurd hkb (List.not_mem_nil _)) huni

/-- C9 counterexample: the claim as stated fails for a sequence in which two
calls share a cache key but observe different data (the process-wide cache is
never invalidated): the second decision comes from the stale cache entry and
differs from the cache-free comparison. -/
theorem usernamesDiff_cache_counterexample :
    usernamesDiffRun []
        [⟨"i".data, "k.0".data, some [['a']], some [['a']]⟩,
         ⟨"i".data, "k.1".data, some [['a']], some [['b']]⟩] ≠
      ([⟨"i".data, "k.0".data, some [['a']], some [['a']]⟩,
        ⟨"i".data, "k.1".data, some [['a']], some [['b']]⟩] : List DiffCall).map
        (fun c => diffCore c.oldData c.newData) := by
  decide

/-- C9 witness: transparency on a concrete uniform sequence — repeated calls
for the two elements of one set field, plus a call for another field. -/
theorem usernamesDiff_cache_transparent_witness :
    (∀ c1 ∈ ([⟨"i".data, "k.0".data, some [['a'], ['b']], some [['@', 'a'], ['b']]⟩,
              ⟨"i".data, "k.1".data, some [['a'], ['b']], some [['@', 'a'], ['b']]⟩,
              ⟨"i".data, "m.0".data, some [['c']], some [['d']]⟩] : List DiffCall),
      ∀ c2 ∈ ([⟨"i".data, "k.0".data, some [['a'], ['b']], some [['@', 'a'], ['b']]⟩,
               ⟨"i".data, "k.1".data, some [['a'], ['b']], some [['@', 'a'], ['b']]⟩,
               ⟨"i".data, "m.0".data, some [['c']], some [['d']]⟩] : List DiffCall),
        cacheKeyOf c1 = cacheKeyOf c2 → c1.oldData = c2.oldData ∧ c1.newData = c2.newData) ∧
    usernamesDiffRun []
        [⟨"i".data, "k.0".data, some [['a'], ['b']], some [['@', 'a'], ['b']]⟩,
         ⟨"i".data, "k.1".data, some [['a'], ['b']], some [['@', 'a'], ['b']]⟩,
         ⟨"i".data, "m.0".data, some [['c']], some [['d']]⟩] =
      ([⟨"i".data, "k.0".data, some [['a'], ['b']], some [['@', 'a'], ['b']]⟩,
        ⟨"i".data, "k.1".data, some [['a'], ['b']], some [['@', 'a'], ['b']]⟩,
        ⟨"i".data, "m.0".data, some [['c']], some [['d']]⟩] : List DiffCall).map
        (fun c => diffCore c.oldData c.newData) :=
  ⟨by decide, usernamesDiff_cache_transparent _ (by decide)⟩
